import Mathlib

/-!
Verification of the GLWE ciphertext engine and key-switching bridge of the
tfhe-rs core, against its natural-language specification.

The development shallowly embeds the relevant Rust source files:
* `core_crypto/commons/math/random/t_uniform.rs` (TUniform sampling),
* `core_crypto/algorithms/glwe_encryption.rs` (GLWE encrypt / decrypt /
  trivial encrypt / list encrypt),
* `shortint/key_switching_key/mod.rs` (keyswitch bridge construction and
  `cast_into`).

Machine integers of width `W` are modelled as natural numbers with explicit
reduction `% 2 ^ W` at every wrapping operation.  Fallible code (Rust
`assert!` / `panic!`) is modelled with `Option`: `none` is the abort.
-/

namespace Tfhe

/-! ## Torus scalars: wrapping arithmetic on `W`-bit unsigned integers -/

/-- Wrapping addition of two `W`-bit unsigned scalars (`u*::wrapping_add`). -/
def wadd (W a b : ℕ) : ℕ := (a + b) % 2 ^ W

/-- Wrapping subtraction of two `W`-bit unsigned scalars (`u*::wrapping_sub`):
`a - b` computed modulo `2 ^ W`. -/
def wsub (W a b : ℕ) : ℕ := (a % 2 ^ W + (2 ^ W - b % 2 ^ W)) % 2 ^ W

/-- Reinterpretation of a `W`-bit unsigned scalar as a signed two's-complement
integer (the `T::Signed` bit-reinterpretation of the source). -/
def toSigned (W : ℕ) (x : ℕ) : ℤ :=
  if x % 2 ^ W < 2 ^ (W - 1) then ((x % 2 ^ W : ℕ) : ℤ)
  else ((x % 2 ^ W : ℕ) : ℤ) - 2 ^ W

/-! ## TUniform sampling (`t_uniform.rs`, `generate_one`) -/

/-- `required_bits.div_ceil(u8::BITS)` of the source with
`required_bits = bound_log2 + 2`: number of bytes drawn per sample. -/
def required_bytes (b : ℕ) : ℕ := (b + 2 + 7) / 8

/-- Little-endian packing of a byte sequence into an unsigned integer
(`<$T>::from_le_bytes`): byte `i` contributes `byte * 256 ^ i`. -/
def from_le_bytes (l : List ℕ) : ℕ := l.foldr (fun a acc => a + 256 * acc) 0

/-- `mod_mask = T::MAX >> (T::BITS - required_bits)` of the source. -/
def mod_mask (W b : ℕ) : ℕ := (2 ^ W - 1) >>> (W - (b + 2))

/-- The arithmetic tail of `generate_one` as a function of the already masked
`(b+2)`-bit input `candidate_for_random`: extract the low bit, shift right by
one, add the bit back with wrapping, and wrapping-subtract `1 << bound_log2`. -/
def tuniform_post (W b r : ℕ) : ℕ :=
  let bit_b_p_1 := r % 2
  let shifted := r / 2
  wsub W (wadd W shifted bit_b_p_1) (1 <<< b)

/-- `RandomGenerable::<TUniform<$T>>::generate_one` of the source, with the
byte generator modelled as a stream `g` of bytes read at increasing positions
(the CSPRNG itself is outside the embedded sources; the spec's only contract
for it is uniform bytes).  Returns the sampled scalar together with the next
unread stream position, so byte consumption is observable.  The Rust buffer is
`size_of::<T>() = W / 8` bytes of which only the first `required_bytes` are
filled; the trailing zero bytes are kept in the model. -/
def tuniform_generate_one (W b : ℕ) (g : ℕ → ℕ) (pos : ℕ) : ℕ × ℕ :=
  let rb := required_bytes b
  let buf := (List.range rb).map (fun i => g (pos + i) % 256) ++
    List.replicate (W / 8 - rb) 0
  let native_int_random := from_le_bytes buf
  let candidate_for_random := native_int_random &&& mod_mask W b
  (tuniform_post W b candidate_for_random, pos + rb)

/-- Modelled from the spec: the four-step TUniform(b) sampling recipe of §4.1,
stated on the drawn bytes.  Step 2 masks to the low `b + 2` bits
(`% 2 ^ (b + 2)`), step 3 extracts the carry and shifts right by one, step 4
adds the carry with wrapping and wrapping-subtracts `2 ^ b`. -/
def tuniform_recipe (W b : ℕ) (bytes : List ℕ) : ℕ :=
  let r := from_le_bytes bytes % 2 ^ (b + 2)
  let carry := r % 2
  let shifted := r / 2
  wsub W (wadd W shifted carry) (2 ^ b)

/-! ### Arithmetic facts about the sampler -/

lemma two_pow_pos (W : ℕ) : 0 < 2 ^ W := Nat.pos_pow_of_pos W (by norm_num)

lemma mod_mask_eq {W b : ℕ} (h : b + 2 ≤ W) : mod_mask W b = 2 ^ (b + 2) - 1 := by
  have hsplit : 2 ^ W = 2 ^ (b + 2) * 2 ^ (W - (b + 2)) := by
    rw [← pow_add]
    congr 1
    omega
  set K := 2 ^ (b + 2) with hK
  set D := 2 ^ (W - (b + 2)) with hD
  have hKpos : 0 < K := two_pow_pos _
  have hDpos : 0 < D := two_pow_pos _
  have hKD : D ≤ K * D := Nat.le_mul_of_pos_left D hKpos
  unfold mod_mask
  rw [Nat.shiftRight_eq_div_pow, hsplit, ← hD]
  have hrw : K * D - 1 = D - 1 + (K - 1) * D := by
    have hms : (K - 1) * D = K * D - D := by
      rw [Nat.sub_mul, one_mul]
    omega
  rw [hrw, Nat.add_mul_div_right _ _ hDpos, Nat.div_eq_of_lt (by omega)]
  omega

lemma masked_eq_mod {W b : ℕ} (h : b + 2 ≤ W) (x : ℕ) :
    x &&& mod_mask W b = x % 2 ^ (b + 2) := by
  rw [mod_mask_eq h, Nat.and_pow_two_sub_one_eq_mod]

lemma masked_lt {W b : ℕ} (h : b + 2 ≤ W) (x : ℕ) :
    x &&& mod_mask W b < 2 ^ (b + 2) := by
  rw [masked_eq_mod h]
  exact Nat.mod_lt _ (two_pow_pos _)

lemma from_le_bytes_append_zeros (l : List ℕ) (m : ℕ) :
    from_le_bytes (l ++ List.replicate m 0) = from_le_bytes l := by
  have hz : from_le_bytes (List.replicate m 0) = 0 := by
    induction m with
    | zero => rfl
    | succ m ih => simpa [from_le_bytes, List.replicate_succ] using ih
  unfold from_le_bytes at hz ⊢
  rw [List.foldr_append, hz]

/-- Power facts used throughout: `b + 2 ≤ W` keeps the support strictly inside
the signed range. -/
lemma tuniform_pow_facts {W b : ℕ} (h : b + 2 ≤ W) :
    2 ^ (b + 2) = 4 * 2 ^ b ∧ 2 ^ (b + 1) = 2 * 2 ^ b ∧
      4 * 2 ^ b ≤ 2 ^ W ∧ 2 * 2 ^ b ≤ 2 ^ (W - 1) ∧ 2 ^ W = 2 * 2 ^ (W - 1) := by
  refine ⟨by ring, by ring, ?_, ?_, ?_⟩
  · calc 4 * 2 ^ b = 2 ^ (b + 2) := by ring
    _ ≤ 2 ^ W := Nat.pow_le_pow_right (by norm_num) h
  · calc 2 * 2 ^ b = 2 ^ (b + 1) := by ring
    _ ≤ 2 ^ (W - 1) := Nat.pow_le_pow_right (by norm_num) (by omega)
  · have hW1 : W - 1 + 1 = W := by omega
    calc 2 ^ W = 2 ^ (W - 1 + 1) := by rw [hW1]
    _ = 2 * 2 ^ (W - 1) := by ring

/-- Key evaluation: on a masked input `r < 2 ^ (b + 2)`, the post-processing of
`generate_one`, read as a signed scalar, equals `(r / 2 + r % 2) - 2 ^ b`. -/
lemma toSigned_tuniform_post {W b : ℕ} (h : b + 2 ≤ W) {r : ℕ}
    (hr : r < 2 ^ (b + 2)) :
    toSigned W (tuniform_post W b r) = ((r / 2 + r % 2 : ℕ) : ℤ) - 2 ^ b := by
  obtain ⟨h4, h2, hQ, hhalf, hsplit⟩ := tuniform_pow_facts h
  have hApos : 0 < 2 ^ b := two_pow_pos b
  have htle : r / 2 + r % 2 ≤ 2 * 2 ^ b := by omega
  have htQ : r / 2 + r % 2 < 2 ^ W := by omega
  have hAQ : 2 ^ b < 2 ^ W := by omega
  have hpost : tuniform_post W b r = (r / 2 + r % 2 + (2 ^ W - 2 ^ b)) % 2 ^ W := by
    simp only [tuniform_post, wadd, wsub, Nat.shiftLeft_eq, one_mul,
      Nat.mod_eq_of_lt htQ, Nat.mod_eq_of_lt hAQ]
  rw [hpost]
  have hcast : ((2 ^ b : ℕ) : ℤ) = (2 : ℤ) ^ b := by push_cast; ring
  have hcastW : ((2 ^ W : ℕ) : ℤ) = (2 : ℤ) ^ W := by push_cast; ring
  unfold toSigned
  by_cases hcase : 2 ^ b ≤ r / 2 + r % 2
  · have hval : (r / 2 + r % 2 + (2 ^ W - 2 ^ b)) % 2 ^ W = r / 2 + r % 2 - 2 ^ b := by
      have hsum : r / 2 + r % 2 + (2 ^ W - 2 ^ b) = 2 ^ W + (r / 2 + r % 2 - 2 ^ b) := by
        omega
      rw [hsum, Nat.add_mod_left, Nat.mod_eq_of_lt (by omega)]
    rw [hval, Nat.mod_eq_of_lt (by omega), if_pos (by omega)]
    omega
  · have hval : (r / 2 + r % 2 + (2 ^ W - 2 ^ b)) % 2 ^ W
        = r / 2 + r % 2 + (2 ^ W - 2 ^ b) := Nat.mod_eq_of_lt (by omega)
    rw [hval, Nat.mod_eq_of_lt (by omega), if_neg (by omega)]
    omega

/-- Preimage set of an interior value: `t0 = v + 2 ^ b` strictly between `0`
and `2 ^ (b + 1)` is reached from exactly the masked inputs `2 t0 - 1` and
`2 t0`. -/
lemma tuniform_filter_interior {W b : ℕ} (h : b + 2 ≤ W) {v : ℤ}
    (hlo : -(2 : ℤ) ^ b < v) (hhi : v < (2 : ℤ) ^ b) :
    ((Finset.range (2 ^ (b + 2))).filter
        (fun r => toSigned W (tuniform_post W b r) = v)).card = 2 := by
  obtain ⟨h4, h2, -, -, -⟩ := tuniform_pow_facts h
  have hApos : 0 < 2 ^ b := two_pow_pos b
  have hcast : ((2 ^ b : ℕ) : ℤ) = (2 : ℤ) ^ b := by push_cast; ring
  set t0 := (v + (2 : ℤ) ^ b).toNat with ht0
  have ht0v : (t0 : ℤ) = v + (2 : ℤ) ^ b := Int.toNat_of_nonneg (by omega)
  have ht0pos : 0 < t0 := by omega
  have ht0lt : t0 < 2 * 2 ^ b := by omega
  have hfe : (Finset.range (2 ^ (b + 2))).filter
      (fun r => toSigned W (tuniform_post W b r) = v)
      = (Finset.range (2 ^ (b + 2))).filter (fun r => r / 2 + r % 2 = t0) := by
    apply Finset.filter_congr
    intro r hr
    rw [Finset.mem_range] at hr
    rw [toSigned_tuniform_post h hr]
    omega
  rw [hfe]
  have hset : (Finset.range (2 ^ (b + 2))).filter (fun r => r / 2 + r % 2 = t0)
      = {2 * t0 - 1, 2 * t0} := by
    ext r
    simp only [Finset.mem_filter, Finset.mem_range, Finset.mem_insert,
      Finset.mem_singleton]
    omega
  rw [hset]
  rw [Finset.card_insert_of_not_mem (by simp only [Finset.mem_singleton]; omega)]
  simp

/-- Preimage set of the lower endpoint `-2 ^ b`: only the masked input `0`. -/
lemma tuniform_filter_lo {W b : ℕ} (h : b + 2 ≤ W) :
    ((Finset.range (2 ^ (b + 2))).filter
        (fun r => toSigned W (tuniform_post W b r) = -(2 : ℤ) ^ b)).card = 1 := by
  obtain ⟨h4, h2, -, -, -⟩ := tuniform_pow_facts h
  have hApos : 0 < 2 ^ b := two_pow_pos b
  have hcast : ((2 ^ b : ℕ) : ℤ) = (2 : ℤ) ^ b := by push_cast; ring
  have hfe : (Finset.range (2 ^ (b + 2))).filter
      (fun r => toSigned W (tuniform_post W b r) = -(2 : ℤ) ^ b)
      = (Finset.range (2 ^ (b + 2))).filter (fun r => r / 2 + r % 2 = 0) := by
    apply Finset.filter_congr
    intro r hr
    rw [Finset.mem_range] at hr
    rw [toSigned_tuniform_post h hr]
    omega
  rw [hfe]
  have hset : (Finset.range (2 ^ (b + 2))).filter (fun r => r / 2 + r % 2 = 0)
      = {0} := by
    ext r
    simp only [Finset.mem_filter, Finset.mem_range, Finset.mem_singleton]
    omega
  rw [hset]
  simp

/-- Preimage set of the upper endpoint `2 ^ b`: only the all-ones masked input
`2 ^ (b + 2) - 1`. -/
lemma tuniform_filter_hi {W b : ℕ} (h : b + 2 ≤ W) :
    ((Finset.range (2 ^ (b + 2))).filter
        (fun r => toSigned W (tuniform_post W b r) = (2 : ℤ) ^ b)).card = 1 := by
  obtain ⟨h4, h2, -, -, -⟩ := tuniform_pow_facts h
  have hApos : 0 < 2 ^ b := two_pow_pos b
  have hcast : ((2 ^ b : ℕ) : ℤ) = (2 : ℤ) ^ b := by push_cast; ring
  have hfe : (Finset.range (2 ^ (b + 2))).filter
      (fun r => toSigned W (tuniform_post W b r) = (2 : ℤ) ^ b)
      = (Finset.range (2 ^ (b + 2))).filter (fun r => r / 2 + r % 2 = 2 * 2 ^ b) := by
    apply Finset.filter_congr
    intro r hr
    rw [Finset.mem_range] at hr
    rw [toSigned_tuniform_post h hr]
    omega
  rw [hfe]
  have hset : (Finset.range (2 ^ (b + 2))).filter (fun r => r / 2 + r % 2 = 2 * 2 ^ b)
      = {2 ^ (b + 2) - 1} := by
    ext r
    simp only [Finset.mem_filter, Finset.mem_range, Finset.mem_singleton]
    omega
  rw [hset]
  simp

/-- The sample returned by `generate_one` is the post-processing of a masked
`(b + 2)`-bit value. -/
lemma tuniform_generate_one_fst (W b : ℕ) (g : ℕ → ℕ) (pos : ℕ) :
    (tuniform_generate_one W b g pos).1 =
      tuniform_post W b
        (from_le_bytes ((List.range (required_bytes b)).map
            (fun i => g (pos + i) % 256) ++ List.replicate (W / 8 - required_bytes b) 0)
          &&& mod_mask W b) := rfl

/-- Claim C1: for every bound `b` with `b + 2 ≤ W`, the scalar returned by
TUniform(b) sampling (`generate_one`), reinterpreted as a signed `W`-bit
integer, lies in the support `{-2^b, …, 2^b}`; as a function of the uniformly
random `(b + 2)`-bit masked input, every interior value `v` with
`-2^b < v < 2^b` has exactly two preimages among the `2^(b+2)` equally likely
inputs (probability `2^(-b-1)`) and each endpoint `-2^b` and `2^b` has exactly
one preimage (probability `2^(-b-2)`). -/
theorem tuniform_support_and_preimages {W b : ℕ} (h : b + 2 ≤ W) :
    (∀ (g : ℕ → ℕ) (pos : ℕ),
        -(2 : ℤ) ^ b ≤ toSigned W (tuniform_generate_one W b g pos).1 ∧
          toSigned W (tuniform_generate_one W b g pos).1 ≤ (2 : ℤ) ^ b) ∧
    (∀ v : ℤ, -(2 : ℤ) ^ b < v → v < (2 : ℤ) ^ b →
        ((Finset.range (2 ^ (b + 2))).filter
            (fun r => toSigned W (tuniform_post W b r) = v)).card = 2) ∧
    ((Finset.range (2 ^ (b + 2))).filter
        (fun r => toSigned W (tuniform_post W b r) = -(2 : ℤ) ^ b)).card = 1 ∧
    ((Finset.range (2 ^ (b + 2))).filter
        (fun r => toSigned W (tuniform_post W b r) = (2 : ℤ) ^ b)).card = 1 := by
  refine ⟨?_, fun v hlo hhi => tuniform_filter_interior h hlo hhi,
    tuniform_filter_lo h, tuniform_filter_hi h⟩
  intro g pos
  rw [tuniform_generate_one_fst, toSigned_tuniform_post h (masked_lt h _)]
  obtain ⟨h4, h2, -, -, -⟩ := tuniform_pow_facts h
  have hApos : 0 < 2 ^ b := two_pow_pos b
  have hcast : ((2 ^ b : ℕ) : ℤ) = (2 : ℤ) ^ b := by push_cast; ring
  have hmlt := masked_lt h (from_le_bytes ((List.range (required_bytes b)).map
    (fun i => g (pos + i) % 256) ++ List.replicate (W / 8 - required_bytes b) 0))
  constructor <;> omega

theorem tuniform_support_and_preimages_witness :
    1 + 2 ≤ 8 ∧
      ((Finset.range (2 ^ (1 + 2))).filter
          (fun r => toSigned 8 (tuniform_post 8 1 r) = -(2 : ℤ) ^ 1)).card = 1 :=
  ⟨by norm_num, (tuniform_support_and_preimages (by norm_num)).2.2.1⟩

/-- Claim C4: one TUniform(b) sample consumes exactly `⌈(b+2)/8⌉` bytes from
the generator, packed LSB-first into a `W`-bit buffer, and then follows the
mask / carry-extract / shift / wrapping-add / wrapping-subtract recipe of the
spec; `required_bytes b` is exactly the ceiling of `(b+2)/8`. -/
theorem tuniform_generate_one_recipe {W b : ℕ} (h : b + 2 ≤ W) (g : ℕ → ℕ)
    (pos : ℕ) :
    tuniform_generate_one W b g pos =
      (tuniform_recipe W b ((List.range (required_bytes b)).map
          fun i => g (pos + i) % 256),
        pos + required_bytes b) ∧
    b + 2 ≤ 8 * required_bytes b ∧ 8 * required_bytes b < b + 2 + 8 := by
  refine ⟨?_, by unfold required_bytes; omega, by unfold required_bytes; omega⟩
  simp only [tuniform_generate_one, tuniform_recipe, tuniform_post,
    from_le_bytes_append_zeros, masked_eq_mod h, Nat.shiftLeft_eq, one_mul]

theorem tuniform_generate_one_recipe_witness :
    1 + 2 ≤ 8 ∧
      tuniform_generate_one 8 1 (fun i => i + 3) 0 =
        (tuniform_recipe 8 1 ((List.range (required_bytes 1)).map
            fun i => (0 + i + 3) % 256),
          0 + required_bytes 1) :=
  ⟨by norm_num, (tuniform_generate_one_recipe (by norm_num) (fun i => i + 3) 0).1⟩

/-! ## Polynomials over the torus (`glwe_encryption.rs` and its collaborators)

The polynomial-algorithms module is not among the embedded sources; §6 of the
spec lists its operations as external collaborators, so they are modelled from
the spec: coefficient-wise wrapping arithmetic `mod 2 ^ W` under the
negacyclic reduction of `Z_{2^W}[X]/(X^N + 1)`. -/

/-- Modelled from the spec: `poly_wrapping_add` — coefficient-wise wrapping
addition. -/
def polyAdd (W : ℕ) (p q : List ℕ) : List ℕ := List.zipWith (wadd W) p q

/-- Modelled from the spec: `poly_wrapping_sub` — coefficient-wise wrapping
subtraction. -/
def polySub (W : ℕ) (p q : List ℕ) : List ℕ := List.zipWith (wsub W) p q

/-- Modelled from the spec: coefficient `k` of the negacyclic product in
`Z[X]/(X^N + 1)` before torus reduction: sum over `i + j ≡ k (mod N)` with
sign `-1` when `i + j ≥ N`. -/
def negacyclicCoeff (N : ℕ) (p q : List ℕ) (k : ℕ) : ℤ :=
  Finset.sum (Finset.range N) fun i =>
    Finset.sum (Finset.range N) fun j =>
      if (i + j) % N = k then
        (if i + j < N then (1 : ℤ) else -1) * (p.getD i 0 : ℤ) * (q.getD j 0 : ℤ)
      else 0

/-- Modelled from the spec: negacyclic polynomial product with coefficients
reduced to `W`-bit torus scalars. -/
def negacyclicMul (W N : ℕ) (p q : List ℕ) : List ℕ :=
  (List.range N).map fun k => (negacyclicCoeff N p q k % (2 ^ W : ℤ)).toNat

/-- Modelled from the spec: `polynomial_wrapping_add_multisum_assign` —
`body += Σ_i ps_i * qs_i` in the negacyclic ring, pair by pair. -/
def polyAddMultisum (W : ℕ) (body : List ℕ) (ps qs : List (List ℕ)) : List ℕ :=
  (List.zip ps qs).foldl
    (fun acc pq => polyAdd W acc (negacyclicMul W acc.length pq.1 pq.2)) body

/-- Modelled from the spec: `polynomial_wrapping_sub_multisum_assign` —
`body -= Σ_i ps_i * qs_i` in the negacyclic ring, pair by pair. -/
def polySubMultisum (W : ℕ) (body : List ℕ) (ps qs : List (List ℕ)) : List ℕ :=
  (List.zip ps qs).foldl
    (fun acc pq => polySub W acc (negacyclicMul W acc.length pq.1 pq.2)) body

/-- The polynomial inner product `⟨ps, qs⟩` of the spec: the sum of the
negacyclic products, accumulated from the zero polynomial of length `n`. -/
def innerProduct (W n : ℕ) (ps qs : List (List ℕ)) : List ℕ :=
  (List.zip ps qs).foldl
    (fun acc pq => polyAdd W acc (negacyclicMul W acc.length pq.1 pq.2))
    (List.replicate n 0)

/-! ### Scalar-level wrapping algebra, via casts into `ZMod (2 ^ W)` -/

lemma wadd_lt (W a b : ℕ) : wadd W a b < 2 ^ W := Nat.mod_lt _ (two_pow_pos W)

lemma wsub_lt (W a b : ℕ) : wsub W a b < 2 ^ W := Nat.mod_lt _ (two_pow_pos W)

lemma natCast_wadd (W a b : ℕ) :
    ((wadd W a b : ℕ) : ZMod (2 ^ W)) = (a : ZMod (2 ^ W)) + b := by
  unfold wadd
  rw [ZMod.natCast_mod, Nat.cast_add]

lemma natCast_wsub (W a b : ℕ) :
    ((wsub W a b : ℕ) : ZMod (2 ^ W)) = (a : ZMod (2 ^ W)) - b := by
  unfold wsub
  have hble : b % 2 ^ W ≤ 2 ^ W := le_of_lt (Nat.mod_lt _ (two_pow_pos W))
  rw [ZMod.natCast_mod, Nat.cast_add, ZMod.natCast_mod, Nat.cast_sub hble,
    ZMod.natCast_self, ZMod.natCast_mod]
  ring

lemma natCast_inj_lt {W a b : ℕ} (ha : a < 2 ^ W) (hb : b < 2 ^ W)
    (h : (a : ZMod (2 ^ W)) = b) : a = b := by
  have hv := congrArg ZMod.val h
  rwa [ZMod.val_cast_of_lt ha, ZMod.val_cast_of_lt hb] at hv

lemma wadd_comm (W a b : ℕ) : wadd W a b = wadd W b a := by
  unfold wadd
  rw [Nat.add_comm]

lemma wadd_assoc (W a b c : ℕ) :
    wadd W (wadd W a b) c = wadd W a (wadd W b c) := by
  apply natCast_inj_lt (wadd_lt _ _ _) (wadd_lt _ _ _)
  simp only [natCast_wadd]
  ring

lemma wsub_wsub (W a b c : ℕ) :
    wsub W (wsub W a b) c = wsub W a (wadd W b c) := by
  apply natCast_inj_lt (wsub_lt _ _ _) (wsub_lt _ _ _)
  simp only [natCast_wsub, natCast_wadd]
  ring

lemma wadd_zero {W a : ℕ} (ha : a < 2 ^ W) : wadd W a 0 = a := by
  unfold wadd
  rw [Nat.add_zero, Nat.mod_eq_of_lt ha]

lemma wsub_zero {W a : ℕ} (ha : a < 2 ^ W) : wsub W a 0 = a := by
  unfold wsub
  rw [Nat.zero_mod, Nat.sub_zero, Nat.mod_eq_of_lt ha, Nat.add_mod_right,
    Nat.mod_eq_of_lt ha]

/-! ### List-level algebra of the wrapping polynomial operations -/

lemma polyAdd_length (W : ℕ) (p q : List ℕ) :
    (polyAdd W p q).length = min p.length q.length := List.length_zipWith _ _ _

lemma polySub_length (W : ℕ) (p q : List ℕ) :
    (polySub W p q).length = min p.length q.length := List.length_zipWith _ _ _

lemma negacyclicMul_length (W N : ℕ) (p q : List ℕ) :
    (negacyclicMul W N p q).length = N := by
  simp [negacyclicMul]

lemma polyAdd_lt (W : ℕ) : ∀ (p q : List ℕ), ∀ a ∈ polyAdd W p q, a < 2 ^ W := by
  intro p
  induction p with
  | nil => intro q a ha; simp [polyAdd] at ha
  | cons x xs ih =>
    intro q a ha
    cases q with
    | nil => simp [polyAdd] at ha
    | cons y ys =>
      simp only [polyAdd, List.zipWith_cons_cons, List.mem_cons] at ha
      rcases ha with rfl | ha
      · exact wadd_lt _ _ _
      · exact ih ys a ha

lemma polySub_lt (W : ℕ) : ∀ (p q : List ℕ), ∀ a ∈ polySub W p q, a < 2 ^ W := by
  intro p
  induction p with
  | nil => intro q a ha; simp [polySub] at ha
  | cons x xs ih =>
    intro q a ha
    cases q with
    | nil => simp [polySub] at ha
    | cons y ys =>
      simp only [polySub, List.zipWith_cons_cons, List.mem_cons] at ha
      rcases ha with rfl | ha
      · exact wsub_lt _ _ _
      · exact ih ys a ha

lemma negacyclicMul_lt (W N : ℕ) (p q : List ℕ) :
    ∀ a ∈ negacyclicMul W N p q, a < 2 ^ W := by
  intro a ha
  simp only [negacyclicMul, List.mem_map, List.mem_range] at ha
  obtain ⟨k, -, rfl⟩ := ha
  have hpos : (0 : ℤ) < (2 ^ W : ℤ) := by positivity
  have h1 : 0 ≤ negacyclicCoeff N p q k % (2 ^ W : ℤ) :=
    Int.emod_nonneg _ (by positivity)
  have h2 : negacyclicCoeff N p q k % (2 ^ W : ℤ) < (2 ^ W : ℤ) :=
    Int.emod_lt_of_pos _ hpos
  have hc : ((2 ^ W : ℕ) : ℤ) = (2 ^ W : ℤ) := by push_cast; ring
  omega

lemma polyAdd_comm (W : ℕ) (p q : List ℕ) : polyAdd W p q = polyAdd W q p :=
  List.zipWith_comm_of_comm _ (wadd_comm W) p q

lemma polyAdd_assoc (W : ℕ) :
    ∀ (p q r : List ℕ), polyAdd W (polyAdd W p q) r = polyAdd W p (polyAdd W q r) := by
  intro p
  induction p with
  | nil => intro q r; simp [polyAdd]
  | cons x xs ih =>
    intro q r
    cases q with
    | nil => simp [polyAdd]
    | cons y ys =>
      cases r with
      | nil => simp [polyAdd]
      | cons z zs =>
        simp only [polyAdd, List.zipWith_cons_cons]
        rw [wadd_assoc]
        exact congrArg _ (ih ys zs)

lemma polySub_polySub (W : ℕ) :
    ∀ (p q r : List ℕ), polySub W (polySub W p q) r = polySub W p (polyAdd W q r) := by
  intro p
  induction p with
  | nil => intro q r; simp [polySub, polyAdd]
  | cons x xs ih =>
    intro q r
    cases q with
    | nil => simp [polySub, polyAdd]
    | cons y ys =>
      cases r with
      | nil => simp [polySub, polyAdd]
      | cons z zs =>
        simp only [polySub, polyAdd, List.zipWith_cons_cons]
        rw [wsub_wsub]
        exact congrArg _ (ih ys zs)

lemma polyAdd_replicate_zero (W : ℕ) :
    ∀ (p : List ℕ), (∀ a ∈ p, a < 2 ^ W) →
      polyAdd W p (List.replicate p.length 0) = p := by
  intro p
  induction p with
  | nil => intro _; rfl
  | cons x xs ih =>
    intro hred
    simp only [List.length_cons, List.replicate_succ, polyAdd,
      List.zipWith_cons_cons]
    rw [wadd_zero (hred x (List.mem_cons_self x xs))]
    exact congrArg _ (ih fun a ha => hred a (List.mem_cons_of_mem _ ha))

lemma polySub_replicate_zero (W : ℕ) :
    ∀ (p : List ℕ), (∀ a ∈ p, a < 2 ^ W) →
      polySub W p (List.replicate p.length 0) = p := by
  intro p
  induction p with
  | nil => intro _; rfl
  | cons x xs ih =>
    intro hred
    simp only [List.length_cons, List.replicate_succ, polySub,
      List.zipWith_cons_cons]
    rw [wsub_zero (hred x (List.mem_cons_self x xs))]
    exact congrArg _ (ih fun a ha => hred a (List.mem_cons_of_mem _ ha))

/-! ## GLWE data model and RNG pair (`glwe_encryption.rs`) -/

/-- A GLWE ciphertext: `k` mask polynomials followed by one body polynomial,
all of length `N` (`GlweCiphertext` of the source).  The dimensions are read
off the containers. -/
@[ext]
structure GlweCiphertext where
  mask : List (List ℕ)
  body : List ℕ

def GlweCiphertext.glwe_dimension (c : GlweCiphertext) : ℕ := c.mask.length

def GlweCiphertext.polynomial_size (c : GlweCiphertext) : ℕ := c.body.length

/-- A GLWE secret key: `k` polynomials of `poly_size` coefficients
(`GlweSecretKey` of the source, which stores the flat container together with
its `PolynomialSize`). -/
structure GlweSecretKey where
  polys : List (List ℕ)
  poly_size : ℕ

def GlweSecretKey.glwe_dimension (s : GlweSecretKey) : ℕ := s.polys.length

/-- Modelled from the spec: the RNG pair of §4.2 (`EncryptionRandomGenerator`
is outside the embedded sources).  The mask generator and the noise generator
are two independent streams of scalars, each consumed at an increasing
position. -/
@[ext]
structure EncRng where
  maskStream : ℕ → ℕ
  noiseStream : ℕ → ℕ
  maskPos : ℕ
  noisePos : ℕ

/-- Modelled from the spec: `fill_slice_with_random_mask` — draw `n` uniform
torus scalars from the mask generator. -/
def draw_mask_scalars (W : ℕ) (g : EncRng) (n : ℕ) : List ℕ × EncRng :=
  ((List.range n).map fun i => g.maskStream (g.maskPos + i) % 2 ^ W,
    { g with maskPos := g.maskPos + n })

/-- Modelled from the spec: one noise sample per coefficient from the noise
generator (`fill_slice_with_random_noise` /
`unsigned_torus_slice_wrapping_add_random_noise_assign` draw the same sample
sequence; the former overwrites, the latter adds). -/
def draw_noise_scalars (W : ℕ) (g : EncRng) (n : ℕ) : List ℕ × EncRng :=
  ((List.range n).map fun i => g.noiseStream (g.noisePos + i) % 2 ^ W,
    { g with noisePos := g.noisePos + n })

/-- The RNG pair after consuming `m` mask scalars and `e` noise scalars. -/
def rngAfter (g : EncRng) (m e : ℕ) : EncRng :=
  { g with maskPos := g.maskPos + m, noisePos := g.noisePos + e }

/-! ## GLWE encryption / decryption algorithms -/

/-- `encrypt_glwe_ciphertext` of the source.  The three `assert!`s become the
`Option` guard (in source order: plaintext count, GLWE dimension, polynomial
size); then the mask is filled from the mask generator, the body is
overwritten with noise, the plaintext is added
(`polynomial_wrapping_add_assign`), and finally the mask/key multisum is added
(`polynomial_wrapping_add_multisum_assign`).  The output ciphertext argument
only contributes its shape: its contents are fully overwritten. -/
def encrypt_glwe_ciphertext (W : ℕ) (s : GlweSecretKey) (p : List ℕ)
    (c : GlweCiphertext) (g : EncRng) : Option (GlweCiphertext × EncRng) :=
  if c.polynomial_size = p.length ∧ c.glwe_dimension = s.glwe_dimension ∧
      c.polynomial_size = s.poly_size then
    let k := c.glwe_dimension
    let n := c.polynomial_size
    let drawnMask := draw_mask_scalars W g (k * n)
    let mask := (List.range k).map fun i => (drawnMask.1.drop (i * n)).take n
    let drawnNoise := draw_noise_scalars W drawnMask.2 n
    let body1 := polyAdd W drawnNoise.1 p
    let body2 := polyAddMultisum W body1 mask s.polys
    some ({ mask := mask, body := body2 }, drawnNoise.2)
  else none

/-- `encrypt_glwe_ciphertext_assign` of the source: same as
`encrypt_glwe_ciphertext` but the plaintext is assumed preloaded in the body,
so the noise is added onto the body instead of overwriting it and no separate
plaintext addition happens. -/
def encrypt_glwe_ciphertext_assign (W : ℕ) (s : GlweSecretKey)
    (c : GlweCiphertext) (g : EncRng) : Option (GlweCiphertext × EncRng) :=
  if c.glwe_dimension = s.glwe_dimension ∧ c.polynomial_size = s.poly_size then
    let k := c.glwe_dimension
    let n := c.polynomial_size
    let drawnMask := draw_mask_scalars W g (k * n)
    let mask := (List.range k).map fun i => (drawnMask.1.drop (i * n)).take n
    let drawnNoise := draw_noise_scalars W drawnMask.2 n
    let body1 := polyAdd W c.body drawnNoise.1
    let body2 := polyAddMultisum W body1 mask s.polys
    some ({ mask := mask, body := body2 }, drawnNoise.2)
  else none

/-- `decrypt_glwe_ciphertext` of the source: after the shape `assert!`s, copy
the body into the output plaintext list and subtract the mask/key multisum
(`polynomial_wrapping_sub_multisum_assign`).  The output buffer is produced
functionally, so its length always matches; the input ciphertext is not
touched. -/
def decrypt_glwe_ciphertext (W : ℕ) (s : GlweSecretKey) (c : GlweCiphertext) :
    Option (List ℕ) :=
  if s.glwe_dimension = c.glwe_dimension ∧ s.poly_size = c.polynomial_size then
    some (polySubMultisum W c.body c.mask s.polys)
  else none

/-- `trivially_encrypt_glwe_ciphertext` of the source: after the length
`assert!`, fill the mask with zeros and copy the plaintext into the body. -/
def trivially_encrypt_glwe_ciphertext (c : GlweCiphertext) (p : List ℕ) :
    Option GlweCiphertext :=
  if p.length = c.polynomial_size then
    some { mask := c.mask.map fun q => q.map fun _ => 0, body := p }
  else none

/-- The `i`-th `N`-chunk of a plaintext list (`chunks_exact` of the source on
an exactly divisible list). -/
def chunkAt (p : List ℕ) (n i : ℕ) : List ℕ := (p.drop (i * n)).take n

/-- An all-zero ciphertext of shape `(k, n)`, standing for the destination
slots of a `GlweCiphertextList` (their prior contents are overwritten). -/
def mkTemplate (k n : ℕ) : GlweCiphertext :=
  { mask := List.replicate k (List.replicate n 0), body := List.replicate n 0 }

/-- The sequential loop body of `encrypt_glwe_ciphertext_list`: encrypt each
chunk in order into the next ciphertext, threading the single RNG pair. -/
def encryptSeq (W : ℕ) (s : GlweSecretKey) (k n : ℕ) :
    List (List ℕ) → EncRng → Option (List GlweCiphertext × EncRng)
  | [], g => some ([], g)
  | ch :: rest, g =>
    (encrypt_glwe_ciphertext W s ch (mkTemplate k n) g).bind fun ctg =>
      (encryptSeq W s k n rest ctg.2).bind fun csg =>
        some (ctg.1 :: csg.1, csg.2)

/-- `encrypt_glwe_ciphertext_list` of the source: the ciphertext list is given
by its shape `(k, n, cnt)`; after the `assert!`s (total plaintext count, GLWE
dimension, polynomial size) each `n`-chunk is encrypted in order with
`encrypt_glwe_ciphertext` under the shared RNG pair. -/
def encrypt_glwe_ciphertext_list (W : ℕ) (s : GlweSecretKey) (p : List ℕ)
    (k n cnt : ℕ) (g : EncRng) : Option (List GlweCiphertext × EncRng) :=
  if n * cnt = p.length ∧ k = s.glwe_dimension ∧ n = s.poly_size then
    encryptSeq W s k n ((List.range cnt).map fun i => chunkAt p n i) g
  else none

/-! ## Spec-side description of one GLWE encryption -/

/-- The mask drawn for one encryption, written per polynomial and coefficient:
entry `(i, j)` is mask-stream position `i * n + j`. -/
def specMask (W : ℕ) (g : EncRng) (k n : ℕ) : List (List ℕ) :=
  (List.range k).map fun i =>
    (List.range n).map fun j => g.maskStream (g.maskPos + (i * n + j)) % 2 ^ W

/-- The noise polynomial drawn for one encryption. -/
def specNoise (W : ℕ) (g : EncRng) (n : ℕ) : List ℕ :=
  (List.range n).map fun j => g.noiseStream (g.noisePos + j) % 2 ^ W

/-- The spec's GLWE encryption (§4.3): mask `A` from the mask generator, noise
`E` from the noise generator, body `B = ⟨A, S⟩ + P + E`, and the RNG pair
advanced by `k·n` mask scalars and `n` noise scalars. -/
def specEncrypt (W : ℕ) (s : GlweSecretKey) (p : List ℕ) (k n : ℕ)
    (g : EncRng) : GlweCiphertext × EncRng :=
  let A := specMask W g k n
  let E := specNoise W g n
  ({ mask := A, body := polyAdd W (polyAdd W (innerProduct W n A s.polys) p) E },
    rngAfter g (k * n) n)

/-! ### The multisum folds as additions of the inner product -/

lemma foldAdd_acc (W n : ℕ) :
    ∀ (l : List (List ℕ × List ℕ)) (x acc : List ℕ),
      x.length = n → acc.length = n →
      l.foldl (fun a pq => polyAdd W a (negacyclicMul W a.length pq.1 pq.2))
          (polyAdd W x acc)
        = polyAdd W x
            (l.foldl (fun a pq => polyAdd W a (negacyclicMul W a.length pq.1 pq.2))
              acc) := by
  intro l
  induction l with
  | nil => intro x acc hx hacc; rfl
  | cons pq l ih =>
    intro x acc hx hacc
    simp only [List.foldl_cons]
    have hlen : (polyAdd W x acc).length = n := by
      rw [polyAdd_length, hx, hacc, Nat.min_self]
    rw [hlen, hacc, polyAdd_assoc]
    exact ih x (polyAdd W acc (negacyclicMul W n pq.1 pq.2)) hx
      (by rw [polyAdd_length, hacc, negacyclicMul_length, Nat.min_self])

lemma foldSub_eq (W n : ℕ) :
    ∀ (l : List (List ℕ × List ℕ)) (x acc : List ℕ),
      x.length = n → acc.length = n →
      l.foldl (fun a pq => polySub W a (negacyclicMul W a.length pq.1 pq.2))
          (polySub W x acc)
        = polySub W x
            (l.foldl (fun a pq => polyAdd W a (negacyclicMul W a.length pq.1 pq.2))
              acc) := by
  intro l
  induction l with
  | nil => intro x acc hx hacc; rfl
  | cons pq l ih =>
    intro x acc hx hacc
    simp only [List.foldl_cons]
    have hlen : (polySub W x acc).length = n := by
      rw [polySub_length, hx, hacc, Nat.min_self]
    rw [hlen, hacc, polySub_polySub]
    exact ih x (polyAdd W acc (negacyclicMul W n pq.1 pq.2)) hx
      (by rw [polyAdd_length, hacc, negacyclicMul_length, Nat.min_self])

lemma polyAddMultisum_eq (W : ℕ) (x : List ℕ) (ps qs : List (List ℕ))
    (hred : ∀ a ∈ x, a < 2 ^ W) :
    polyAddMultisum W x ps qs = polyAdd W x (innerProduct W x.length ps qs) := by
  unfold polyAddMultisum innerProduct
  conv_lhs =>
    rw [show x = polyAdd W x (List.replicate x.length 0) from
      (polyAdd_replicate_zero W x hred).symm]
  rw [foldAdd_acc W x.length _ x _ rfl (by simp)]

lemma polySubMultisum_eq (W : ℕ) (x : List ℕ) (ps qs : List (List ℕ))
    (hred : ∀ a ∈ x, a < 2 ^ W) :
    polySubMultisum W x ps qs = polySub W x (innerProduct W x.length ps qs) := by
  unfold polySubMultisum innerProduct
  conv_lhs =>
    rw [show x = polySub W x (List.replicate x.length 0) from
      (polySub_replicate_zero W x hred).symm]
  rw [foldSub_eq W x.length _ x _ rfl (by simp)]

/-! ### Chunking the flat mask draw -/

lemma chunk_of_flat (f : ℕ → ℕ) (k n i : ℕ) (hi : i < k) :
    (((List.range (k * n)).map f).drop (i * n)).take n
      = (List.range n).map fun j => f (i * n + j) := by
  have hin : i * n + n ≤ k * n := by
    have h2 : i * n + n = (i + 1) * n := by ring
    have h1 : (i + 1) * n ≤ k * n := Nat.mul_le_mul_right n hi
    omega
  apply List.ext_getElem
  · simp only [List.length_take, List.length_drop, List.length_map,
      List.length_range]
    omega
  · intro j h1 h2
    simp only [List.getElem_take, List.getElem_drop, List.getElem_map,
      List.getElem_range]

lemma mask_chunks_eq (W : ℕ) (g : EncRng) (k n : ℕ) :
    ((List.range k).map fun i =>
        ((((List.range (k * n)).map fun t => g.maskStream (g.maskPos + t) % 2 ^ W)).drop
            (i * n)).take n)
      = specMask W g k n := by
  unfold specMask
  apply List.map_congr_left
  intro i hi
  rw [List.mem_range] at hi
  exact chunk_of_flat (fun t => g.maskStream (g.maskPos + t) % 2 ^ W) k n i hi

/-! ### The encryption algorithm matches the spec's formula -/

lemma encrypt_glwe_eq (W : ℕ) (s : GlweSecretKey) (p : List ℕ)
    (c : GlweCiphertext) (g : EncRng) :
    encrypt_glwe_ciphertext W s p c g =
      if c.polynomial_size = p.length ∧ c.glwe_dimension = s.glwe_dimension ∧
          c.polynomial_size = s.poly_size then
        some (specEncrypt W s p c.glwe_dimension c.polynomial_size g)
      else none := by
  unfold encrypt_glwe_ciphertext specEncrypt
  split
  · rename_i h
    obtain ⟨hp, hk, hn⟩ := h
    simp only [draw_mask_scalars, draw_noise_scalars, rngAfter, specNoise]
    rw [mask_chunks_eq]
    have hbody : polyAddMultisum W
        (polyAdd W ((List.range c.polynomial_size).map fun i =>
            g.noiseStream (g.noisePos + i) % 2 ^ W) p)
        (specMask W g c.glwe_dimension c.polynomial_size) s.polys
        = polyAdd W (polyAdd W (innerProduct W c.polynomial_size
            (specMask W g c.glwe_dimension c.polynomial_size) s.polys) p)
          ((List.range c.polynomial_size).map fun i =>
            g.noiseStream (g.noisePos + i) % 2 ^ W) := by
      set E := (List.range c.polynomial_size).map fun i =>
        g.noiseStream (g.noisePos + i) % 2 ^ W with hE
      have hEp : (polyAdd W E p).length = c.polynomial_size := by
        rw [polyAdd_length, hE]
        simp only [List.length_map, List.length_range]
        omega
      rw [polyAddMultisum_eq W _ _ _ (polyAdd_lt W E p), hEp]
      set I := innerProduct W c.polynomial_size
        (specMask W g c.glwe_dimension c.polynomial_size) s.polys
      calc polyAdd W (polyAdd W E p) I = polyAdd W I (polyAdd W E p) :=
        polyAdd_comm _ _ _
      _ = polyAdd W I (polyAdd W p E) := by rw [polyAdd_comm W E p]
      _ = polyAdd W (polyAdd W I p) E := (polyAdd_assoc _ _ _ _).symm
    rw [hbody]
  · rfl

/-- Reducedness of a scalar list: every coefficient is a genuine `W`-bit
value.  This is the standing invariant of every container the Rust code
stores in `u*` slices. -/
def allLt (W : ℕ) (l : List ℕ) : Prop := ∀ a ∈ l, a < 2 ^ W

instance (W : ℕ) (l : List ℕ) : Decidable (allLt W l) :=
  inferInstanceAs (Decidable (∀ a ∈ l, a < 2 ^ W))

/-- Claim C2: for every secret key `S`, plaintext list `P`, output ciphertext
`C` and RNG state such that `C.k = S.k`, `C.N = S.N` and `|P| = N` (the
function aborts loudly when any of these shape preconditions fails),
`encrypt_glwe_ciphertext` fills the mask `A` with uniform scalars from the
mask generator, overwrites the body with fresh noise `E` from the noise
generator, then adds `P` and then the negacyclic inner product `⟨A, S⟩`, all
coefficient-wise wrapping, so the resulting body equals
`B = ⟨A, S⟩ + P + E`. -/
theorem encrypt_glwe_ciphertext_spec (W : ℕ) (s : GlweSecretKey) (p : List ℕ)
    (c : GlweCiphertext) (g : EncRng) :
    encrypt_glwe_ciphertext W s p c g =
      if c.polynomial_size = p.length ∧ c.glwe_dimension = s.glwe_dimension ∧
          c.polynomial_size = s.poly_size then
        some (specEncrypt W s p c.glwe_dimension c.polynomial_size g)
      else none :=
  encrypt_glwe_eq W s p c g

/-- Claim C5: for every secret key `S` and ciphertext `C` with matching GLWE
dimension and polynomial size (aborting on any shape mismatch),
`decrypt_glwe_ciphertext` produces `P = B - ⟨A, S⟩`: it copies the body and
subtracts the wrapping negacyclic inner product of the mask with the secret
key.  The model is functional, so the input ciphertext is unchanged by
construction. -/
theorem decrypt_glwe_ciphertext_spec (W : ℕ) (s : GlweSecretKey)
    (c : GlweCiphertext) (hred : allLt W c.body) :
    decrypt_glwe_ciphertext W s c =
      if s.glwe_dimension = c.glwe_dimension ∧ s.poly_size = c.polynomial_size then
        some (polySub W c.body (innerProduct W c.polynomial_size c.mask s.polys))
      else none := by
  unfold decrypt_glwe_ciphertext
  split
  · rw [polySubMultisum_eq W c.body c.mask s.polys hred]
    rfl
  · rfl

theorem decrypt_glwe_ciphertext_spec_witness :
    allLt 2 (GlweCiphertext.mk [[1, 2]] [3, 1]).body ∧
      decrypt_glwe_ciphertext 2 (GlweSecretKey.mk [[1, 0]] 2)
          (GlweCiphertext.mk [[1, 2]] [3, 1]) =
        if (GlweSecretKey.mk [[1, 0]] 2).glwe_dimension
              = (GlweCiphertext.mk [[1, 2]] [3, 1]).glwe_dimension ∧
            (GlweSecretKey.mk [[1, 0]] 2).poly_size
              = (GlweCiphertext.mk [[1, 2]] [3, 1]).polynomial_size then
          some (polySub 2 (GlweCiphertext.mk [[1, 2]] [3, 1]).body
            (innerProduct 2 (GlweCiphertext.mk [[1, 2]] [3, 1]).polynomial_size
              (GlweCiphertext.mk [[1, 2]] [3, 1]).mask
              (GlweSecretKey.mk [[1, 0]] 2).polys))
        else none :=
  ⟨by decide, decrypt_glwe_ciphertext_spec 2 _ _ (by decide)⟩

/-! ### Trivial encryption: the zero mask contributes nothing -/

lemma getD_map_zero (q : List ℕ) (i : ℕ) : (q.map fun _ => 0).getD i 0 = 0 := by
  rw [List.getD_eq_getElem?_getD, List.getElem?_map]
  cases q[i]? <;> simp

lemma negacyclicMul_zero_left (W N : ℕ) (z q : List ℕ)
    (hz : ∀ i, z.getD i 0 = 0) :
    negacyclicMul W N z q = List.replicate N 0 := by
  have hcoeff : ∀ c, negacyclicCoeff N z q c = 0 := by
    intro c
    unfold negacyclicCoeff
    apply Finset.sum_eq_zero
    intro i _
    apply Finset.sum_eq_zero
    intro j _
    rw [hz i]
    simp
  apply List.ext_getElem
  · simp [negacyclicMul]
  · intro idx h1 h2
    simp [negacyclicMul, hcoeff]

lemma polySubMultisum_zero_mask (W : ℕ) :
    ∀ (zs qs : List (List ℕ)) (x : List ℕ),
      (∀ a ∈ x, a < 2 ^ W) →
      (∀ z ∈ zs, ∀ i, z.getD i 0 = 0) →
      polySubMultisum W x zs qs = x := by
  intro zs
  induction zs with
  | nil => intro qs x hred hz; rfl
  | cons z zs ih =>
    intro qs x hred hz
    cases qs with
    | nil => rfl
    | cons q qs =>
      unfold polySubMultisum
      simp only [List.zip_cons_cons, List.foldl_cons]
      rw [negacyclicMul_zero_left W x.length z q
          (hz z (List.mem_cons_self z zs)),
        polySub_replicate_zero W x hred]
      exact ih qs x hred fun w hw => hz w (List.mem_cons_of_mem _ hw)

/-- Claim C6: trivial encryption round-trip.
`trivially_encrypt_glwe_ciphertext` sets the whole mask to zero and copies `P`
into the body, and any secret key whose dimensions match decrypts the
resulting ciphertext back to `P` bit-exactly. -/
theorem trivially_encrypt_roundtrip (W : ℕ) (s : GlweSecretKey)
    (c : GlweCiphertext) (p : List ℕ)
    (hp : p.length = c.polynomial_size)
    (hred : allLt W p)
    (hk : s.glwe_dimension = c.glwe_dimension)
    (hn : s.poly_size = p.length) :
    trivially_encrypt_glwe_ciphertext c p
        = some (GlweCiphertext.mk (c.mask.map fun q => q.map fun _ => 0) p) ∧
      decrypt_glwe_ciphertext W s
          (GlweCiphertext.mk (c.mask.map fun q => q.map fun _ => 0) p)
        = some p := by
  constructor
  · unfold trivially_encrypt_glwe_ciphertext
    rw [if_pos hp]
  · unfold decrypt_glwe_ciphertext
    rw [if_pos ⟨by simpa [GlweCiphertext.glwe_dimension] using hk,
      by simpa [GlweCiphertext.polynomial_size] using hn⟩]
    have hzero : ∀ z ∈ c.mask.map fun q => q.map fun _ => (0 : ℕ),
        ∀ i, z.getD i 0 = 0 := by
      intro z hzmem i
      rw [List.mem_map] at hzmem
      obtain ⟨q, -, rfl⟩ := hzmem
      exact getD_map_zero q i
    rw [polySubMultisum_zero_mask W _ s.polys p hred hzero]

theorem trivially_encrypt_roundtrip_witness :
    ([2, 3] : List ℕ).length = (GlweCiphertext.mk [[5, 7]] [0, 0]).polynomial_size ∧
      (trivially_encrypt_glwe_ciphertext (GlweCiphertext.mk [[5, 7]] [0, 0]) [2, 3]
          = some (GlweCiphertext.mk ([[5, 7]].map fun q => q.map fun _ => 0) [2, 3]) ∧
        decrypt_glwe_ciphertext 2 (GlweSecretKey.mk [[1, 1]] 2)
            (GlweCiphertext.mk ([[5, 7]].map fun q => q.map fun _ => 0) [2, 3])
          = some [2, 3]) :=
  ⟨by decide, trivially_encrypt_roundtrip 2 (GlweSecretKey.mk [[1, 1]] 2)
    (GlweCiphertext.mk [[5, 7]] [0, 0]) [2, 3]
    (by decide) (by decide) (by decide) (by decide)⟩

/-! ### The preloaded-body variant -/

/-- Claim C8: if the body of the output ciphertext is preloaded with the
plaintext `P`, then `encrypt_glwe_ciphertext_assign` produces exactly the same
ciphertext and RNG state as `encrypt_glwe_ciphertext` run on `P` from the same
RNG state with any fresh output of the same shape. -/
theorem encrypt_assign_equiv (W : ℕ) (s : GlweSecretKey)
    (c cFresh : GlweCiphertext) (g : EncRng)
    (hk : c.glwe_dimension = s.glwe_dimension)
    (hn : c.polynomial_size = s.poly_size)
    (hk2 : cFresh.glwe_dimension = c.glwe_dimension)
    (hn2 : cFresh.polynomial_size = c.polynomial_size) :
    encrypt_glwe_ciphertext_assign W s c g
      = encrypt_glwe_ciphertext W s c.body cFresh g := by
  simp only [encrypt_glwe_ciphertext_assign, encrypt_glwe_ciphertext]
  rw [hk2, hn2]
  rw [if_pos ⟨hk, hn⟩, if_pos ⟨rfl, hk, hn⟩]
  rw [polyAdd_comm W c.body]

theorem encrypt_assign_equiv_witness :
    (GlweCiphertext.mk [[0, 0]] [1, 2]).glwe_dimension
        = (GlweSecretKey.mk [[1, 0]] 2).glwe_dimension ∧
      encrypt_glwe_ciphertext_assign 2 (GlweSecretKey.mk [[1, 0]] 2)
          (GlweCiphertext.mk [[0, 0]] [1, 2])
          (EncRng.mk (fun i => i) (fun i => 2 * i) 0 0)
        = encrypt_glwe_ciphertext 2 (GlweSecretKey.mk [[1, 0]] 2)
            (GlweCiphertext.mk [[0, 0]] [1, 2]).body
            (GlweCiphertext.mk [[9, 9]] [7, 7])
            (EncRng.mk (fun i => i) (fun i => 2 * i) 0 0) :=
  ⟨by decide, encrypt_assign_equiv 2 (GlweSecretKey.mk [[1, 0]] 2)
    (GlweCiphertext.mk [[0, 0]] [1, 2]) (GlweCiphertext.mk [[9, 9]] [7, 7])
    (EncRng.mk (fun i => i) (fun i => 2 * i) 0 0)
    (by decide) (by decide) (by decide) (by decide)⟩

/-! ### List encryption -/

/-- The RNG pair as it stands before the `i`-th chunk of a list encryption:
`i` full encryptions have consumed `i·k·n` mask scalars and `i·n` noise
scalars. -/
def rngAt (g : EncRng) (k n i : ℕ) : EncRng := rngAfter g (i * (k * n)) (i * n)

lemma rngAt_zero (g : EncRng) (k n : ℕ) : rngAt g k n 0 = g := by
  cases g
  simp [rngAt, rngAfter]

lemma rngAfter_rngAt (g : EncRng) (k n i : ℕ) :
    rngAfter (rngAt g k n i) (k * n) n = rngAt g k n (i + 1) := by
  cases g
  simp only [rngAt, rngAfter, EncRng.mk.injEq, true_and]
  constructor <;> ring

lemma rngAt_rngAfter (g : EncRng) (k n i : ℕ) :
    rngAt (rngAfter g (k * n) n) k n i = rngAt g k n (i + 1) := by
  cases g
  simp only [rngAt, rngAfter, EncRng.mk.injEq, true_and]
  constructor <;> ring

lemma mkTemplate_dims (k n : ℕ) :
    (mkTemplate k n).glwe_dimension = k ∧ (mkTemplate k n).polynomial_size = n := by
  constructor <;>
    simp [mkTemplate, GlweCiphertext.glwe_dimension, GlweCiphertext.polynomial_size]

/-- One iteration of the list-encryption loop, in spec form. -/
lemma encrypt_template_eq (W : ℕ) (s : GlweSecretKey) (k n : ℕ) (ch : List ℕ)
    (g : EncRng) (hk : k = s.glwe_dimension) (hn : n = s.poly_size)
    (hch : ch.length = n) :
    encrypt_glwe_ciphertext W s ch (mkTemplate k n) g
      = some ((specEncrypt W s ch k n g).1, rngAfter g (k * n) n) := by
  obtain ⟨hdim, hps⟩ := mkTemplate_dims k n
  rw [encrypt_glwe_eq,
    if_pos ⟨by rw [hps, hch], by rw [hdim]; exact hk, by rw [hps]; exact hn⟩,
    hdim, hps]
  rfl

lemma encryptSeq_spec (W : ℕ) (s : GlweSecretKey) (k n : ℕ)
    (hk : k = s.glwe_dimension) (hn : n = s.poly_size) :
    ∀ (chs : List (List ℕ)) (g : EncRng), (∀ ch ∈ chs, ch.length = n) →
      encryptSeq W s k n chs g =
        some ((List.range chs.length).map fun i =>
            (specEncrypt W s (chs.getD i []) k n (rngAt g k n i)).1,
          rngAt g k n chs.length) := by
  intro chs
  induction chs with
  | nil =>
    intro g _
    simp only [encryptSeq, List.length_nil, List.range_zero, List.map_nil,
      rngAt_zero]
  | cons ch chs ih =>
    intro g hlen
    simp only [encryptSeq]
    rw [encrypt_template_eq W s k n ch g hk hn (hlen ch (List.mem_cons_self ch chs))]
    simp only [Option.some_bind]
    rw [ih (rngAfter g (k * n) n) fun w hw => hlen w (List.mem_cons_of_mem _ hw)]
    simp only [Option.some_bind, List.length_cons, List.range_succ_eq_map,
      List.map_cons, List.map_map, Function.comp_def, Nat.succ_eq_add_one,
      List.getD_cons_zero, List.getD_cons_succ, rngAt_zero, rngAt_rngAfter]

lemma chunkAt_length (p : List ℕ) (n cnt i : ℕ) (hlen : n * cnt = p.length)
    (hi : i < cnt) : (chunkAt p n i).length = n := by
  unfold chunkAt
  simp only [List.length_take, List.length_drop]
  have h1 : (i + 1) * n ≤ cnt * n := Nat.mul_le_mul_right n hi
  have h2 : (i + 1) * n = i * n + n := by ring
  have h3 : cnt * n = n * cnt := by ring
  omega

lemma getD_range_map (f : ℕ → List ℕ) (cnt i : ℕ) (hi : i < cnt) :
    ((List.range cnt).map f).getD i [] = f i := by
  rw [List.getD_eq_getElem?_getD, List.getElem?_map, List.getElem?_range hi]
  rfl

/-- Claim C9: for `|P| = n·cnt` (aborting otherwise),
`encrypt_glwe_ciphertext_list` encrypts the `i`-th `n`-chunk of `P` into the
`i`-th ciphertext sequentially through the shared RNG pair; the result equals
encrypting each chunk individually in order with `encrypt_glwe_ciphertext`
under the same threaded RNG, and the `i`-th encryption consumes RNG positions
strictly after the `(i-1)`-th. -/
theorem encrypt_list_equiv (W : ℕ) (s : GlweSecretKey) (p : List ℕ)
    (k n cnt : ℕ) (g : EncRng)
    (hlen : n * cnt = p.length) (hk : k = s.glwe_dimension)
    (hn : n = s.poly_size) :
    encrypt_glwe_ciphertext_list W s p k n cnt g
        = some ((List.range cnt).map fun i =>
            (specEncrypt W s (chunkAt p n i) k n (rngAt g k n i)).1,
          rngAt g k n cnt) ∧
      (∀ i, i < cnt →
        encrypt_glwe_ciphertext W s (chunkAt p n i) (mkTemplate k n)
            (rngAt g k n i)
          = some ((specEncrypt W s (chunkAt p n i) k n (rngAt g k n i)).1,
            rngAt g k n (i + 1))) ∧
      (∀ i, (0 < n → (rngAt g k n i).noisePos < (rngAt g k n (i + 1)).noisePos) ∧
        (0 < k * n → (rngAt g k n i).maskPos < (rngAt g k n (i + 1)).maskPos)) := by
  refine ⟨?_, ?_, ?_⟩
  · have hl : ∀ ch ∈ (List.range cnt).map fun i => chunkAt p n i,
        ch.length = n := by
      intro ch hch
      rw [List.mem_map] at hch
      obtain ⟨i, hi, rfl⟩ := hch
      rw [List.mem_range] at hi
      exact chunkAt_length p n cnt i hlen hi
    unfold encrypt_glwe_ciphertext_list
    rw [if_pos ⟨hlen, hk, hn⟩, encryptSeq_spec W s k n hk hn _ g hl]
    simp only [List.length_map, List.length_range, Option.some.injEq,
      Prod.mk.injEq, and_true]
    refine ?_
    apply List.map_congr_left
    intro i hi
    rw [List.mem_range] at hi
    rw [getD_range_map _ _ _ hi]
  · intro i hi
    rw [encrypt_template_eq W s k n _ _ hk hn
      (chunkAt_length p n cnt i hlen hi), rngAfter_rngAt]
  · intro i
    constructor
    · intro hnpos
      have h2 : (i + 1) * n = i * n + n := by ring
      simp only [rngAt, rngAfter]
      omega
    · intro hknpos
      have h2 : (i + 1) * (k * n) = i * (k * n) + k * n := by ring
      simp only [rngAt, rngAfter]
      omega

theorem encrypt_list_equiv_witness :
    2 * 2 = ([1, 2, 3, 0] : List ℕ).length ∧
      encrypt_glwe_ciphertext_list 2 (GlweSecretKey.mk [[1, 0]] 2) [1, 2, 3, 0]
          1 2 2 (EncRng.mk (fun i => i) (fun i => 2 * i) 0 0)
        = some ((List.range 2).map fun i =>
            (specEncrypt 2 (GlweSecretKey.mk [[1, 0]] 2)
              (chunkAt [1, 2, 3, 0] 2 i) 1 2
              (rngAt (EncRng.mk (fun i => i) (fun i => 2 * i) 0 0) 1 2 i)).1,
          rngAt (EncRng.mk (fun i => i) (fun i => 2 * i) 0 0) 1 2 2) :=
  ⟨by decide, (encrypt_list_equiv 2 (GlweSecretKey.mk [[1, 0]] 2) [1, 2, 3, 0]
    1 2 2 (EncRng.mk (fun i => i) (fun i => 2 * i) 0 0)
    (by decide) (by decide) (by decide)).1⟩

/-! ## Shortint keyswitch bridge (`shortint/key_switching_key/mod.rs`) -/

/-- The fields of an `LweKeyswitchKeyOwned` that the bridge inspects. -/
structure LweKeyswitchKeyM where
  input_key_lwe_dimension : ℕ
  output_key_lwe_dimension : ℕ
  ciphertext_modulus : ℕ
  deriving DecidableEq

/-- The fields of a shortint `ServerKey` that the bridge inspects.  The
message and carry moduli are carried along for the §3 invariants;
`from_raw_parts` never reads them. -/
structure ServerKeyM where
  ciphertext_lwe_dimension : ℕ
  ciphertext_modulus : ℕ
  message_modulus : ℕ
  carry_modulus : ℕ
  deriving DecidableEq

/-- The fields of a shortint `ClientKey` that `KeySwitchingKey::new` reads:
its parameters' message and carry moduli. -/
structure ClientKeyM where
  message_modulus : ℕ
  carry_modulus : ℕ
  deriving DecidableEq

/-- `KeySwitchingKey` of the source: keyswitch key, destination and source
server keys, and the signed 8-bit `cast_rshift` (modelled as `ℤ`). -/
structure KeySwitchingKeyM where
  key_switching_key : LweKeyswitchKeyM
  dest_server_key : ServerKeyM
  src_server_key : ServerKeyM
  cast_rshift : ℤ
  deriving DecidableEq

/-- A shortint `Ciphertext`: an LWE ciphertext (abstract type `L`) tagged
with its message and carry moduli. -/
structure ShortintCt (L : Type) where
  ct : L
  message_modulus : ℕ
  carry_modulus : ℕ

/-- The external capabilities `cast_into` composes (§6 of the spec):
`keyswitch_lwe_ciphertext`, `generate_lookup_table` and
`apply_lookup_table` / `apply_lookup_table_assign`.  `L` is the LWE
ciphertext type and `A` the accumulator (lookup table) type; all three
operations are abstract collaborators. -/
structure CastOps (L A : Type) where
  keyswitch : LweKeyswitchKeyM → L → L
  generate_lookup_table : ServerKeyM → (ℕ → ℕ) → A
  apply_lookup_table : ServerKeyM → ShortintCt L → A → ShortintCt L

/-- `usize::is_power_of_two`. -/
def is_power_of_two (x : ℕ) : Bool := (x != 0) && (x == 2 ^ Nat.log2 x)

/-- `KeySwitchingKey::new` of the source.  The engine call
`ShortintEngine::new_key_switching_key` is not among the embedded sources and
is abstracted as `mk_ksk` (modelled from the spec: the keyswitch keygen
materialises a key from the two client keys).  `new` requires both full
message moduli `carry·message` to be powers of two and stores
`cast_rshift = ilog2(m2·c2) - ilog2(m1·c1)` (`ilog2` of a `usize` is below
64, so the source's `try_into::<i8>().unwrap()` can never abort). -/
def KeySwitchingKeyM.new (mk_ksk : ClientKeyM → ClientKeyM → LweKeyswitchKeyM)
    (ck1 : ClientKeyM) (sk1 : ServerKeyM) (ck2 : ClientKeyM)
    (sk2 : ServerKeyM) : Option KeySwitchingKeyM :=
  let full_message_modulus_1 := ck1.carry_modulus * ck1.message_modulus
  let full_message_modulus_2 := ck2.carry_modulus * ck2.message_modulus
  if is_power_of_two full_message_modulus_1 &&
      is_power_of_two full_message_modulus_2 then
    some (KeySwitchingKeyM.mk (mk_ksk ck1 ck2) sk2 sk1
      ((Nat.log2 full_message_modulus_2 : ℤ)
        - (Nat.log2 full_message_modulus_1 : ℤ)))
  else none

/-- `KeySwitchingKey::from_raw_parts` of the source: four `assert_eq!`s on
dimensions and ciphertext moduli, then the parts are stored as given — in
particular `cast_rshift` is stored unchecked and the message moduli are
never read. -/
def KeySwitchingKeyM.from_raw_parts (ksk : LweKeyswitchKeyM)
    (dest_server_key src_server_key : ServerKeyM) (cast_rshift : ℤ) :
    Option KeySwitchingKeyM :=
  if src_server_key.ciphertext_lwe_dimension = ksk.input_key_lwe_dimension ∧
      dest_server_key.ciphertext_lwe_dimension = ksk.output_key_lwe_dimension ∧
      src_server_key.ciphertext_modulus = dest_server_key.ciphertext_modulus ∧
      ksk.ciphertext_modulus = dest_server_key.ciphertext_modulus then
    some (KeySwitchingKeyM.mk ksk dest_server_key src_server_key cast_rshift)
  else none

/-- `cast_into` of the source: three cases keyed by the sign of
`cast_rshift`, with the final `unreachable!()` arm modelled as `none`.  The
`u64` closures become functions on naturals: `n >> i` is `n >>> i`, and
`n << j` wraps modulo `2 ^ 64`. -/
def cast_into {L A : Type} (ops : CastOps L A) (self : KeySwitchingKeyM)
    (ct ct_dest : ShortintCt L) : Option (ShortintCt L) :=
  if self.cast_rshift = 0 then
    some { ct_dest with ct := ops.keyswitch self.key_switching_key ct.ct }
  else if 0 < self.cast_rshift then
    let i := self.cast_rshift.toNat
    let d1 : ShortintCt L :=
      { ct_dest with ct := ops.keyswitch self.key_switching_key ct.ct }
    let acc := ops.generate_lookup_table self.dest_server_key fun n => n >>> i
    some (ops.apply_lookup_table self.dest_server_key d1 acc)
  else if self.cast_rshift < 0 then
    let j := (-self.cast_rshift).toNat
    let acc := ops.generate_lookup_table self.src_server_key fun n =>
      ((n <<< j) % 2 ^ 64) % (ct.carry_modulus * ct.message_modulus)
    let shifted := ops.apply_lookup_table self.src_server_key ct acc
    some { ct_dest with ct := ops.keyswitch self.key_switching_key shifted.ct }
  else none

/-- Claim C3: `cast_into` performs exactly the three-case algorithm keyed by
the sign of `cast_rshift = i`: at `i = 0` it only LWE-keyswitches `src` into
`dst`; at `i > 0` it first keyswitches and then applies a functional
bootstrap on the result with the lookup table `n ↦ n >> i` generated under
the destination server key; at `i < 0` it first applies a functional
bootstrap on `src` with the lookup table `n ↦ (n << -i) mod (m1·c1)` (the
input ciphertext's full message modulus, `u64`-wrapped) generated under the
source server key, and only then keyswitches the shifted ciphertext into
`dst`. -/
theorem cast_into_three_cases {L A : Type} (ops : CastOps L A)
    (self : KeySwitchingKeyM) (ct ct_dest : ShortintCt L) :
    (self.cast_rshift = 0 →
      cast_into ops self ct ct_dest
        = some { ct_dest with
            ct := ops.keyswitch self.key_switching_key ct.ct }) ∧
    (0 < self.cast_rshift →
      cast_into ops self ct ct_dest
        = some (ops.apply_lookup_table self.dest_server_key
            { ct_dest with ct := ops.keyswitch self.key_switching_key ct.ct }
            (ops.generate_lookup_table self.dest_server_key
              fun n => n >>> self.cast_rshift.toNat))) ∧
    (self.cast_rshift < 0 →
      cast_into ops self ct ct_dest
        = some { ct_dest with
            ct := ops.keyswitch self.key_switching_key
              (ops.apply_lookup_table self.src_server_key ct
                (ops.generate_lookup_table self.src_server_key fun n =>
                  ((n <<< (-self.cast_rshift).toNat) % 2 ^ 64)
                    % (ct.carry_modulus * ct.message_modulus))).ct }) := by
  refine ⟨?_, ?_, ?_⟩
  · intro h
    unfold cast_into
    rw [if_pos h]
  · intro h
    unfold cast_into
    rw [if_neg (by omega), if_pos h]
  · intro h
    unfold cast_into
    rw [if_neg (by omega), if_neg (by omega), if_pos h]

/-- A concrete instantiation of the abstract collaborators, for witnesses. -/
def castOpsDemo : CastOps ℕ ℕ :=
  CastOps.mk (fun _ c => c + 1) (fun _ f => f 3)
    (fun _ c a => ShortintCt.mk (c.ct + a) c.message_modulus c.carry_modulus)

theorem cast_into_three_cases_witness :
    (KeySwitchingKeyM.mk (LweKeyswitchKeyM.mk 4 5 8) (ServerKeyM.mk 5 8 2 2)
        (ServerKeyM.mk 4 8 2 2) 0).cast_rshift = 0 ∧
      cast_into castOpsDemo
          (KeySwitchingKeyM.mk (LweKeyswitchKeyM.mk 4 5 8)
            (ServerKeyM.mk 5 8 2 2) (ServerKeyM.mk 4 8 2 2) 0)
          (ShortintCt.mk 7 2 2) (ShortintCt.mk 0 4 4)
        = some (ShortintCt.mk 8 4 4) :=
  ⟨rfl, (cast_into_three_cases castOpsDemo
    (KeySwitchingKeyM.mk (LweKeyswitchKeyM.mk 4 5 8) (ServerKeyM.mk 5 8 2 2)
      (ServerKeyM.mk 4 8 2 2) 0)
    (ShortintCt.mk 7 2 2) (ShortintCt.mk 0 4 4)).1 rfl⟩

/-- Claim C10: for every signed 8-bit value of `cast_rshift` — including
values set arbitrarily through `from_raw_parts` — the match in `cast_into`
is exhaustive over zero, positive and negative, so the final
`unreachable!()` arm is never executed and `cast_into` never aborts through
it. -/
theorem cast_into_total {L A : Type} (ops : CastOps L A)
    (self : KeySwitchingKeyM) (ct ct_dest : ShortintCt L)
    (hlo : -128 ≤ self.cast_rshift) (hhi : self.cast_rshift ≤ 127) :
    (cast_into ops self ct ct_dest).isSome = true := by
  unfold cast_into
  rcases lt_trichotomy self.cast_rshift 0 with h | h | h
  · rw [if_neg (by omega), if_neg (by omega), if_pos h]
    rfl
  · rw [if_pos h]
    rfl
  · rw [if_neg (by omega), if_pos h]
    rfl

theorem cast_into_total_witness :
    -128 ≤ (KeySwitchingKeyM.mk (LweKeyswitchKeyM.mk 4 5 8)
        (ServerKeyM.mk 5 8 2 2) (ServerKeyM.mk 4 8 2 2) (-3)).cast_rshift ∧
      (cast_into castOpsDemo
          (KeySwitchingKeyM.mk (LweKeyswitchKeyM.mk 4 5 8)
            (ServerKeyM.mk 5 8 2 2) (ServerKeyM.mk 4 8 2 2) (-3))
          (ShortintCt.mk 7 2 2) (ShortintCt.mk 0 4 4)).isSome = true :=
  ⟨by decide, cast_into_total castOpsDemo
    (KeySwitchingKeyM.mk (LweKeyswitchKeyM.mk 4 5 8) (ServerKeyM.mk 5 8 2 2)
      (ServerKeyM.mk 4 8 2 2) (-3))
    (ShortintCt.mk 7 2 2) (ShortintCt.mk 0 4 4) (by decide) (by decide)⟩

/-- Claim C7, counterexample: `from_raw_parts` with matching dimensions and
ciphertext moduli but full message moduli `1·3 = 3` (not a power of two) and
`cast_rshift = 7` succeeds and stores `7`, although
`log2(m2·c2) − log2(m1·c1) = 0`: construction neither aborts on the violated
power-of-two invariant nor stores the `log2` difference. -/
theorem ksk_from_raw_parts_counterexample :
    KeySwitchingKeyM.from_raw_parts (LweKeyswitchKeyM.mk 4 5 8)
        (ServerKeyM.mk 5 8 3 1) (ServerKeyM.mk 4 8 3 1) 7
      = some (KeySwitchingKeyM.mk (LweKeyswitchKeyM.mk 4 5 8)
          (ServerKeyM.mk 5 8 3 1) (ServerKeyM.mk 4 8 3 1) 7) ∧
    is_power_of_two ((ServerKeyM.mk 4 8 3 1).carry_modulus
        * (ServerKeyM.mk 4 8 3 1).message_modulus) = false ∧
    (7 : ℤ) ≠ (Nat.log2 3 : ℤ) - (Nat.log2 3 : ℤ) := by
  refine ⟨by decide, by simp [is_power_of_two, Nat.log2], by simp [Nat.log2]⟩

/-- Claim C7, amended: `KeySwitchingKey::new` succeeds exactly when both full
message moduli are powers of two and then stores
`cast_rshift = log2(m2·c2) − log2(m1·c1)`, while `from_raw_parts` succeeds
exactly when the source/destination LWE dimensions match the keyswitch key's
input/output dimensions and the three ciphertext moduli agree; it performs no
power-of-two check and stores the caller-provided `cast_rshift` unchecked. -/
theorem ksk_construction_amended
    (mk_ksk : ClientKeyM → ClientKeyM → LweKeyswitchKeyM)
    (ck1 : ClientKeyM) (sk1 : ServerKeyM) (ck2 : ClientKeyM) (sk2 : ServerKeyM)
    (ksk : LweKeyswitchKeyM) (d s : ServerKeyM) (r : ℤ) :
    ((KeySwitchingKeyM.new mk_ksk ck1 sk1 ck2 sk2).isSome = true ↔
      (is_power_of_two (ck1.carry_modulus * ck1.message_modulus) = true ∧
        is_power_of_two (ck2.carry_modulus * ck2.message_modulus) = true)) ∧
    (∀ key, KeySwitchingKeyM.new mk_ksk ck1 sk1 ck2 sk2 = some key →
      key.cast_rshift
        = (Nat.log2 (ck2.carry_modulus * ck2.message_modulus) : ℤ)
          - (Nat.log2 (ck1.carry_modulus * ck1.message_modulus) : ℤ)) ∧
    ((KeySwitchingKeyM.from_raw_parts ksk d s r).isSome = true ↔
      (s.ciphertext_lwe_dimension = ksk.input_key_lwe_dimension ∧
        d.ciphertext_lwe_dimension = ksk.output_key_lwe_dimension ∧
        s.ciphertext_modulus = d.ciphertext_modulus ∧
        ksk.ciphertext_modulus = d.ciphertext_modulus)) ∧
    (∀ key, KeySwitchingKeyM.from_raw_parts ksk d s r = some key →
      key.cast_rshift = r) := by
  refine ⟨?_, ?_, ?_, ?_⟩
  · simp only [KeySwitchingKeyM.new]
    split
    · rename_i hcond
      rw [Bool.and_eq_true] at hcond
      simp [hcond]
    · rename_i hcond
      rw [Bool.and_eq_true] at hcond
      simp only [Option.isSome_none, Bool.false_eq_true, false_iff]
      intro hboth
      exact hcond hboth
  · intro key hkey
    simp only [KeySwitchingKeyM.new] at hkey
    split at hkey
    · simp only [Option.some.injEq] at hkey
      subst hkey
      rfl
    · exact Option.noConfusion hkey
  · unfold KeySwitchingKeyM.from_raw_parts
    split
    · rename_i hcond
      simp [hcond]
    · rename_i hcond
      simp only [Option.isSome_none, Bool.false_eq_true, false_iff]
      exact hcond
  · intro key hkey
    unfold KeySwitchingKeyM.from_raw_parts at hkey
    split at hkey
    · simp only [Option.some.injEq] at hkey
      subst hkey
      rfl
    · exact Option.noConfusion hkey

theorem ksk_construction_amended_witness :
    (KeySwitchingKeyM.new (fun _ _ => LweKeyswitchKeyM.mk 1 1 8)
        (ClientKeyM.mk 2 2) (ServerKeyM.mk 1 8 2 2) (ClientKeyM.mk 4 4)
        (ServerKeyM.mk 1 8 4 4)).isSome = true :=
  (ksk_construction_amended (fun _ _ => LweKeyswitchKeyM.mk 1 1 8)
      (ClientKeyM.mk 2 2) (ServerKeyM.mk 1 8 2 2) (ClientKeyM.mk 4 4)
      (ServerKeyM.mk 1 8 4 4) (LweKeyswitchKeyM.mk 1 1 8)
      (ServerKeyM.mk 1 8 2 2) (ServerKeyM.mk 1 8 2 2) 0).1.mpr
    ⟨by simp [is_power_of_two, Nat.log2], by simp [is_power_of_two, Nat.log2]⟩

end Tfhe
